import Mathlib

set_option maxRecDepth 100000

/-!
# Verification of the vue-prop-konverter conversion engine

A shallow embedding of the string-scanner conversion pipeline
(`src/utils.ts`, `src/core/converter.ts`) of the `vue-prop-konverter`
repository, together with proofs and refutations of the frozen claims
about it.  Texts are modelled as `List Char` (wrapped in `String` at the
top level); every JavaScript `while` loop over an index becomes a
recursion over the remaining character list (with an explicit fuel
argument when the loop can jump forward by `indexOf`).
-/

namespace VPK

/-- JS `\s` (the ASCII part, which is all the scanners ever meet). -/
def isWs (c : Char) : Bool :=
  c = ' ' ∨ c = '\t' ∨ c = '\n' ∨ c = '\r' ∨ c = '\x0b' ∨ c = '\x0c'

/-- The identifier characters of the scanners: `[A-Za-z0-9_$]`. -/
def isIdentChar (c : Char) : Bool :=
  ('A' ≤ c ∧ c ≤ 'Z') ∨ ('a' ≤ c ∧ c ≤ 'z') ∨ ('0' ≤ c ∧ c ≤ '9') ∨ c = '_' ∨ c = '$'

/-- JS regex word characters (`\w`, and the `\b` boundary test): `[A-Za-z0-9_]`. -/
def isWordChar (c : Char) : Bool :=
  ('A' ≤ c ∧ c ≤ 'Z') ∨ ('a' ≤ c ∧ c ≤ 'z') ∨ ('0' ≤ c ∧ c ≤ '9') ∨ c = '_'

def isDigit (c : Char) : Bool := '0' ≤ c ∧ c ≤ '9'

/-- The three JS quote characters recognised by every scanner. -/
def isQuote (c : Char) : Bool := c = '\'' ∨ c = '"' ∨ c = '`'

/-- JS `String.prototype.slice(a, b)` on a character list (for `0 ≤ a ≤ b`). -/
def strSlice (cs : List Char) (a b : Nat) : List Char := (cs.drop a).take (b - a)

/-- `sep.join`-style interleaving: `joinSep s [a, b, c] = a ++ s ++ b ++ s ++ c`. -/
def joinSep (sep : String) : List String → String
  | [] => ""
  | [s] => s
  | s :: rest => s ++ sep ++ joinSep sep rest

def trimLeftL (cs : List Char) : List Char := cs.dropWhile (fun c => isWs c)

def trimRightL (cs : List Char) : List Char := (trimLeftL cs.reverse).reverse

/-- JS `String.prototype.trim` on a character list. -/
def trimL (cs : List Char) : List Char := trimRightL (trimLeftL cs)

def trimS (s : String) : String := ⟨trimL s.data⟩

/-- JS `split(sep)` for a one-character separator, on character lists
(kernel-reducible, unlike `String.splitOn`). -/
def splitOnChar (sep : Char) : List Char → List (List Char)
  | [] => [[]]
  | c :: cs =>
    if c = sep then [] :: splitOnChar sep cs
    else
      match splitOnChar sep cs with
      | [] => [[c]]
      | p :: ps => (c :: p) :: ps

/-- Substring containment (JS `String.prototype.includes`). -/
def containsStr (hay needle : String) : Prop := needle.data <:+: hay.data

instance (hay needle : String) : Decidable (containsStr hay needle) :=
  inferInstanceAs (Decidable (needle.data <:+: hay.data))

end VPK

/-! ## The Balanced-Scanner (`findMatching`, src/utils.ts)

`findMatching(text, openIdx, openChar, closeChar)` walks forward from
`openIdx` with a depth counter and a single-character quote state,
returning the index where the depth first returns to zero on a
`closeChar`, or `-1`.  The recursion below consumes the character list
`text.data.drop openIdx` while carrying the absolute index `i`. -/

namespace VPK

/-- One quote state: `none` = outside any string literal, `some q` =
inside a literal opened by quote character `q`. -/
abbrev QuoteSt := Option Char

/-- The loop of `findMatching`.  Cases mirror the JS `for` body exactly:
inside a string an escape consumes the following character, the matching
quote closes the string; outside, a quote opens a string, `openChar`
increments the depth and `closeChar` decrements it, returning the running
index when the depth reaches zero. -/
def findMatchingAux (openChar closeChar : Char) :
    List Char → QuoteSt → Int → Nat → Option Nat
  | [], _, _, _ => none
  | c :: cs, some q, depth, i =>
    if c = '\\' then
      match cs with
      | [] => none
      | _ :: cs' => findMatchingAux openChar closeChar cs' (some q) depth (i + 2)
    else if c = q then
      findMatchingAux openChar closeChar cs none depth (i + 1)
    else
      findMatchingAux openChar closeChar cs (some q) depth (i + 1)
  | c :: cs, none, depth, i =>
    if isQuote c then
      findMatchingAux openChar closeChar cs (some c) depth (i + 1)
    else if c = openChar then
      findMatchingAux openChar closeChar cs none (depth + 1) (i + 1)
    else if c = closeChar then
      if depth - 1 = 0 then some i
      else findMatchingAux openChar closeChar cs none (depth - 1) (i + 1)
    else
      findMatchingAux openChar closeChar cs none depth (i + 1)

/-- `findMatching` of src/utils.ts on a character list: `-1` is the
not-found sentinel. -/
def findMatchingL (text : List Char) (openIdx : Nat) (openChar closeChar : Char) : Int :=
  match findMatchingAux openChar closeChar (text.drop openIdx) none 0 openIdx with
  | some j => (j : Int)
  | none => -1

/-- `findMatching` of src/utils.ts. -/
def findMatching (text : String) (openIdx : Nat) (openChar closeChar : Char) : Int :=
  findMatchingL text.data openIdx openChar closeChar

/-- Counts of `openChar` and `closeChar` over a character list, outside
quoted regions, with the scanner's own quote-and-escape discipline. -/
def bracketCounts (openChar closeChar : Char) :
    List Char → QuoteSt → Nat × Nat
  | [], _ => (0, 0)
  | c :: cs, some q =>
    if c = '\\' then
      match cs with
      | [] => (0, 0)
      | _ :: cs' => bracketCounts openChar closeChar cs' (some q)
    else if c = q then bracketCounts openChar closeChar cs none
    else bracketCounts openChar closeChar cs (some q)
  | c :: cs, none =>
    if isQuote c then bracketCounts openChar closeChar cs (some c)
    else if c = openChar then
      let r := bracketCounts openChar closeChar cs none
      (r.1 + 1, r.2)
    else if c = closeChar then
      let r := bracketCounts openChar closeChar cs none
      (r.1, r.2 + 1)
    else bracketCounts openChar closeChar cs none

theorem bc_some_esc (oc cc q c2 : Char) (cs : List Char) :
    bracketCounts oc cc ('\\' :: c2 :: cs) (some q) = bracketCounts oc cc cs (some q) := by
  rw [bracketCounts]; simp

theorem bc_some_close (oc cc q : Char) (hb : q ≠ '\\') (cs : List Char) :
    bracketCounts oc cc (q :: cs) (some q) = bracketCounts oc cc cs none := by
  cases cs with
  | nil => rw [bracketCounts.eq_2]; simp [hb]
  | cons c2 cs2 => rw [bracketCounts.eq_3]; simp [hb]

theorem bc_some_other (oc cc q c : Char) (hb : c ≠ '\\') (hq : c ≠ q) (cs : List Char) :
    bracketCounts oc cc (c :: cs) (some q) = bracketCounts oc cc cs (some q) := by
  cases cs with
  | nil => rw [bracketCounts.eq_2]; simp [hb, hq]
  | cons c2 cs2 => rw [bracketCounts.eq_3]; simp [hb, hq]

theorem fmA_nil (oc cc : Char) (st : QuoteSt) (d : Int) (i : Nat) :
    findMatchingAux oc cc [] st d i = none := by
  rw [findMatchingAux]

theorem bc_none_quote (oc cc c : Char) (h : isQuote c = true) (cs : List Char) :
    bracketCounts oc cc (c :: cs) none = bracketCounts oc cc cs (some c) := by
  rw [bracketCounts]; simp [h]

theorem bc_none_open_fst (oc cc c : Char) (hq : isQuote c = false) (h : c = oc)
    (cs : List Char) :
    (bracketCounts oc cc (c :: cs) none).1 = (bracketCounts oc cc cs none).1 + 1 := by
  subst h; rw [bracketCounts]; simp [hq]

theorem bc_none_open_snd (oc cc c : Char) (hq : isQuote c = false) (h : c = oc)
    (cs : List Char) :
    (bracketCounts oc cc (c :: cs) none).2 = (bracketCounts oc cc cs none).2 := by
  subst h; rw [bracketCounts]; simp [hq]

theorem bc_none_close_fst (oc cc c : Char) (hq : isQuote c = false) (ho : c ≠ oc)
    (h : c = cc) (cs : List Char) :
    (bracketCounts oc cc (c :: cs) none).1 = (bracketCounts oc cc cs none).1 := by
  subst h; rw [bracketCounts]; simp [hq, ho]

theorem bc_none_close_snd (oc cc c : Char) (hq : isQuote c = false) (ho : c ≠ oc)
    (h : c = cc) (cs : List Char) :
    (bracketCounts oc cc (c :: cs) none).2 = (bracketCounts oc cc cs none).2 + 1 := by
  subst h; rw [bracketCounts]; simp [hq, ho]

theorem bc_none_other (oc cc c : Char) (hq : isQuote c = false) (h1 : c ≠ oc) (h2 : c ≠ cc)
    (cs : List Char) :
    bracketCounts oc cc (c :: cs) none = bracketCounts oc cc cs none := by
  rw [bracketCounts]; simp [hq, h1, h2]

/-- Main invariant of the balanced scan: whenever the loop returns index
`j`, the character at the corresponding offset is `closeChar`, and over
the consumed span (inclusive of position `j`) the number of `openChar`s
minus the number of `closeChar`s, counted outside quotes, equals the
negated initial depth. -/
theorem findMatchingAux_spec (oc cc : Char) :
    ∀ (n : Nat) (cs : List Char), cs.length ≤ n →
    ∀ (st : QuoteSt) (d : Int) (i j : Nat),
      findMatchingAux oc cc cs st d i = some j →
      ∃ k, ∃ hk : k < cs.length, j = i + k ∧ cs.get ⟨k, hk⟩ = cc ∧
        d + ((bracketCounts oc cc (cs.take (k + 1)) st).1 : Int)
          - ((bracketCounts oc cc (cs.take (k + 1)) st).2 : Int) = 0 := by
  intro n
  induction n with
  | zero =>
    intro cs hlen st d i j h
    have hnil : cs = [] := List.eq_nil_of_length_eq_zero (Nat.le_zero.mp hlen)
    subst hnil; rw [findMatchingAux] at h; exact Option.noConfusion h
  | succ m ih =>
    intro cs hlen st d i j h
    match cs, st with
    | [], _ => rw [findMatchingAux] at h; exact Option.noConfusion h
    | c :: cs, some q =>
      match cs with
      | [] =>
        rw [findMatchingAux] at h
        simp only [fmA_nil, ite_self] at h
        exact Option.noConfusion h
      | c2 :: cs2 =>
        rw [findMatchingAux] at h
        simp only [List.length_cons] at hlen
        by_cases hb : c = '\\'
        · subst hb
          rw [if_pos rfl] at h
          obtain ⟨k, hk, hj, hg, hc⟩ := ih cs2 (by omega) (some q) d (i + 2) j h
          refine ⟨k + 2, by simp; omega, by omega, by simpa using hg, ?_⟩
          rw [List.take_succ_cons, List.take_succ_cons, bc_some_esc]
          exact hc
        · rw [if_neg hb] at h
          by_cases hq : c = q
          · subst hq
            rw [if_pos rfl] at h
            obtain ⟨k, hk, hj, hg, hc⟩ := ih (c2 :: cs2) (by simp; omega) none d (i + 1) j h
            refine ⟨k + 1, by simp at hk ⊢; omega, by omega, by simpa using hg, ?_⟩
            rw [List.take_succ_cons, bc_some_close oc cc c hb]
            exact hc
          · rw [if_neg hq] at h
            obtain ⟨k, hk, hj, hg, hc⟩ :=
              ih (c2 :: cs2) (by simp; omega) (some q) d (i + 1) j h
            refine ⟨k + 1, by simp at hk ⊢; omega, by omega, by simpa using hg, ?_⟩
            rw [List.take_succ_cons, bc_some_other oc cc q c hb hq]
            exact hc
    | c :: cs, none =>
      simp only [findMatchingAux] at h
      simp only [List.length_cons] at hlen
      by_cases hquote : isQuote c = true
      · rw [if_pos hquote] at h
        obtain ⟨k, hk, hj, hg, hc⟩ := ih cs (by omega) (some c) d (i + 1) j h
        refine ⟨k + 1, by simp; omega, by omega, by simpa using hg, ?_⟩
        rw [List.take_succ_cons, bc_none_quote oc cc c hquote]
        exact hc
      · rw [if_neg hquote] at h
        rw [Bool.not_eq_true] at hquote
        by_cases hoc : c = oc
        · rw [if_pos hoc] at h
          obtain ⟨k, hk, hj, hg, hc⟩ := ih cs (by omega) none (d + 1) (i + 1) j h
          refine ⟨k + 1, by simp; omega, by omega, by simpa using hg, ?_⟩
          rw [List.take_succ_cons, bc_none_open_fst oc cc c hquote hoc,
            bc_none_open_snd oc cc c hquote hoc]
          push_cast at hc ⊢
          omega
        · rw [if_neg hoc] at h
          by_cases hcc : c = cc
          · rw [if_pos hcc] at h
            by_cases hd : d - 1 = 0
            · rw [if_pos hd] at h
              obtain rfl : i = j := by simpa using h
              refine ⟨0, by simp, by omega, by simpa using hcc, ?_⟩
              rw [List.take_succ_cons, List.take_zero,
                bc_none_close_fst oc cc c hquote hoc hcc,
                bc_none_close_snd oc cc c hquote hoc hcc]
              simp only [bracketCounts]
              omega
            · rw [if_neg hd] at h
              obtain ⟨k, hk, hj, hg, hc⟩ := ih cs (by omega) none (d - 1) (i + 1) j h
              refine ⟨k + 1, by simp; omega, by omega, by simpa using hg, ?_⟩
              rw [List.take_succ_cons, bc_none_close_fst oc cc c hquote hoc hcc,
                bc_none_close_snd oc cc c hquote hoc hcc]
              push_cast at hc ⊢
              omega
          · rw [if_neg hcc] at h
            obtain ⟨k, hk, hj, hg, hc⟩ := ih cs (by omega) none d (i + 1) j h
            refine ⟨k + 1, by simp; omega, by omega, by simpa using hg, ?_⟩
            rw [List.take_succ_cons, bc_none_other oc cc c hquote hoc hcc]
            exact hc

/-- C4: whenever `findMatching` returns an index rather than the not-found
sentinel `-1`, the returned index points at a character equal to
`closeChar`, and the span from `openIndex` to the returned index
inclusive contains equal counts of `openChar` and `closeChar` outside
quoted regions. -/
theorem C4_findMatching_balanced (text : String) (openIdx : Nat) (oc cc : Char)
    (h : findMatching text openIdx oc cc ≠ -1) :
    ∃ j : Nat, findMatching text openIdx oc cc = (j : Int) ∧
      text.data.get? j = some cc ∧
      (bracketCounts oc cc (strSlice text.data openIdx (j + 1)) none).1 =
        (bracketCounts oc cc (strSlice text.data openIdx (j + 1)) none).2 := by
  unfold findMatching findMatchingL at h ⊢
  cases hr : findMatchingAux oc cc (text.data.drop openIdx) none 0 openIdx with
  | none => rw [hr] at h; exact absurd rfl h
  | some j0 =>
    obtain ⟨k, hk, hj, hg, hc⟩ :=
      findMatchingAux_spec oc cc (text.data.drop openIdx).length
        (text.data.drop openIdx) le_rfl none 0 openIdx j0 hr
    subst hj
    refine ⟨openIdx + k, rfl, ?_, ?_⟩
    · have h1 : (text.data.drop openIdx).get? k = some cc := by
        rw [List.get?_eq_get hk]; exact congrArg some hg
      rw [← h1, List.get?_drop]
    · have hslice :
          strSlice text.data openIdx (openIdx + k + 1) =
            (text.data.drop openIdx).take (k + 1) := by
        unfold strSlice; congr 1; omega
      rw [hslice]
      omega

/-- Witness for C4 at a concrete accepted input. -/
theorem C4_findMatching_balanced_witness :
    findMatching "(a)" 0 '(' ')' ≠ -1 ∧
      ∃ j : Nat, findMatching "(a)" 0 '(' ')' = (j : Int) ∧
        "(a)".data.get? j = some ')' ∧
        (bracketCounts '(' ')' (strSlice "(a)".data 0 (j + 1)) none).1 =
          (bracketCounts '(' ')' (strSlice "(a)".data 0 (j + 1)) none).2 :=
  ⟨by decide, C4_findMatching_balanced "(a)" 0 '(' ')' (by decide)⟩

end VPK

/-! ## The Entry Extractor (`extractProps`, src/utils.ts)

`extractProps(body)` walks the object-literal body, collecting leading
and inline comments, a property name (quoted or bare identifier), a
colon, and a value scanned with the same nesting/quote discipline as the
Balanced-Scanner, terminated by a top-level comma or the end of the
body.  A name not followed by a colon advances the position by one
character and retries. -/

namespace VPK

structure PropEntry where
  name : String
  value : String
  comment : Option String
deriving DecidableEq, Repr

/-- `indexOf('\n', i)` as a split: the characters before the first
newline and, when one exists, the characters after it. -/
def breakAtNl : List Char → List Char × Option (List Char)
  | [] => ([], none)
  | c :: rest =>
    if c = '\n' then ([], some rest)
    else
      let r := breakAtNl rest
      (c :: r.1, r.2)

/-- `indexOf('*/', i)` as a split: the characters before the first
adjacent pair `*` `/` and, when one exists, the characters after it. -/
def breakAtStarSlash : List Char → List Char × Option (List Char)
  | [] => ([], none)
  | c :: rest =>
    if c = '*' ∧ rest.head? = some '/' then ([], some rest.tail)
    else
      let r := breakAtStarSlash rest
      (c :: r.1, r.2)

theorem breakAtNl_eq (cs : List Char) :
    ∀ (pre tail : List Char), breakAtNl cs = (pre, some tail) →
      cs = pre ++ '\n' :: tail := by
  induction cs with
  | nil => intro pre tail h; simp [breakAtNl] at h
  | cons c rest ih =>
    intro pre tail h
    rw [breakAtNl] at h
    by_cases hc : c = '\n'
    · rw [if_pos hc] at h
      obtain ⟨h1, h2⟩ := Prod.mk.injEq .. ▸ h
      simp [← h1, ← (Option.some.injEq .. ▸ h2), hc]
    · rw [if_neg hc] at h
      obtain ⟨h1, h2⟩ := Prod.mk.injEq .. ▸ h
      have hrec := ih (breakAtNl rest).1 tail (by rw [← h2])
      rw [← h1, List.cons_append]
      exact congrArg (List.cons c) hrec

theorem breakAtStarSlash_eq (cs : List Char) :
    ∀ (pre tail : List Char), breakAtStarSlash cs = (pre, some tail) →
      cs = pre ++ '*' :: '/' :: tail := by
  induction cs with
  | nil => intro pre tail h; simp [breakAtStarSlash] at h
  | cons c rest ih =>
    intro pre tail h
    rw [breakAtStarSlash] at h
    by_cases hc : c = '*' ∧ rest.head? = some '/'
    · rw [if_pos hc] at h
      obtain ⟨h1, h2⟩ := Prod.mk.injEq .. ▸ h
      obtain ⟨hstar, hslash⟩ := hc
      cases rest with
      | nil => simp at hslash
      | cons rh rt =>
        have hrh : rh = '/' := by simpa using hslash
        simp only [List.tail_cons] at h2
        simp [← h1, ← (Option.some.injEq .. ▸ h2), hstar, hrh]
    · rw [if_neg hc] at h
      obtain ⟨h1, h2⟩ := Prod.mk.injEq .. ▸ h
      have hrec := ih (breakAtStarSlash rest).1 tail (by rw [← h2])
      rw [← h1, List.cons_append]
      exact congrArg (List.cons c) hrec

theorem breakAtNl_tail_lt (cs pre tail : List Char)
    (h : breakAtNl cs = (pre, some tail)) : tail.length < cs.length := by
  have := breakAtNl_eq cs pre tail h
  subst this; simp; omega

theorem breakAtStarSlash_tail_lt (cs pre tail : List Char)
    (h : breakAtStarSlash cs = (pre, some tail)) : tail.length < cs.length := by
  have := breakAtStarSlash_eq cs pre tail h
  subst this; simp; omega

/-- The value scan of `extractProps` (lines 288–325 of src/utils.ts):
walks with nesting depth and quote state, extracts inline comments seen
at depth zero, and stops at a depth-zero comma or the end of the body.
Returns the consumed span (the value slice), the collected inline
comments in encounter order, and the unconsumed rest (starting at the
terminating comma when there is one). -/
def valueLoop : Nat → List Char → QuoteSt → Nat → List Char × List String × List Char
  | _, [], _, _ => ([], [], [])
  | 0, cs, _, _ => ([], [], cs)
  | fuel + 1, c :: cs, some q, d =>
    if c = '\\' then
      match cs with
      | [] => ([c], [], [])
      | c2 :: cs2 =>
        let r := valueLoop fuel cs2 (some q) d
        (c :: c2 :: r.1, r.2.1, r.2.2)
    else if c = q then
      let r := valueLoop fuel cs none d
      (c :: r.1, r.2.1, r.2.2)
    else
      let r := valueLoop fuel cs (some q) d
      (c :: r.1, r.2.1, r.2.2)
  | fuel + 1, c :: cs, none, d =>
    if isQuote c then
      let r := valueLoop fuel cs (some c) d
      (c :: r.1, r.2.1, r.2.2)
    else if c = '{' ∨ c = '[' ∨ c = '(' then
      let r := valueLoop fuel cs none (d + 1)
      (c :: r.1, r.2.1, r.2.2)
    else if c = '}' ∨ c = ']' ∨ c = ')' then
      let r := valueLoop fuel cs none (d - 1)
      (c :: r.1, r.2.1, r.2.2)
    else if d = 0 ∧ c = '/' ∧ cs.head? = some '/' then
      match breakAtNl (c :: cs) with
      | (pre, some tail) =>
        let r := valueLoop fuel tail none d
        (pre ++ '\n' :: r.1, (⟨trimL pre⟩ : String) :: r.2.1, r.2.2)
      | (pre, none) => (pre, [(⟨trimL pre⟩ : String)], [])
    else if d = 0 ∧ c = '/' ∧ cs.head? = some '*' then
      match breakAtStarSlash (c :: cs) with
      | (pre, some tail) =>
        let r := valueLoop fuel tail none d
        (pre ++ '*' :: '/' :: r.1, (⟨trimL (pre ++ ['*', '/'])⟩ : String) :: r.2.1, r.2.2)
      | (_, none) =>
        let r := valueLoop fuel cs none d
        (c :: r.1, r.2.1, r.2.2)
    else if d = 0 ∧ c = ',' then ([], [], c :: cs)
    else
      let r := valueLoop fuel cs none d
      (c :: r.1, r.2.1, r.2.2)

/-- The pre-entry comment loop of `extractProps` (lines 235–258 of
src/utils.ts): consumes consecutive line/block comments and blank
characters, accumulating trimmed comment texts; an unterminated block
comment consumes to the end of the input. -/
def commentLoop : Nat → List Char → List String × List Char
  | _, [] => ([], [])
  | 0, cs => ([], cs)
  | fuel + 1, c :: cs =>
    if c = '/' ∧ cs.head? = some '/' then
      match breakAtNl (c :: cs) with
      | (pre, some tail) =>
        let r := commentLoop fuel tail
        ((⟨trimL pre⟩ : String) :: r.1, r.2)
      | (pre, none) => ([(⟨trimL pre⟩ : String)], [])
    else if c = '/' ∧ cs.head? = some '*' then
      match breakAtStarSlash (c :: cs) with
      | (pre, some tail) =>
        let r := commentLoop fuel tail
        ((⟨trimL (pre ++ ['*', '/'])⟩ : String) :: r.1, r.2)
      | (_, none) => ([], [])
    else if isWs c then commentLoop fuel cs
    else ([], c :: cs)

/-- The quoted-name loop of `extractProps` (lines 264–273 of
src/utils.ts), entered after the opening quote `q` has been consumed:
each step appends the character (plus the escaped one after a backslash)
and stops after appending a character equal to `q`. -/
def quotedName (q : Char) : List Char → List Char × List Char
  | [] => ([], [])
  | c :: cs =>
    if c = '\\' then
      match cs with
      | [] => ([c], [])
      | c2 :: cs2 =>
        if c = q then ([c, c2], cs2)
        else
          let r := quotedName q cs2
          (c :: c2 :: r.1, r.2)
    else if c = q then ([c], cs)
    else
      let r := quotedName q cs
      (c :: r.1, r.2)

/-- One pass of the `extractProps` while-loop, spending one unit of fuel
per iteration (the JS loop consumes at least one character per
iteration, so `length + 1` units always suffice). -/
def extractPropsAux : Nat → List Char → List PropEntry
  | 0, _ => []
  | fuel + 1, body =>
    let cs1 := body.dropWhile (fun c => isWs c)
    match cs1 with
    | [] => []
    | _ :: _ =>
      let pc := commentLoop (cs1.length + 1) cs1
      match pc.2 with
      | [] => []
      | nc :: nrest =>
        let np :=
          if isQuote nc then
            let r := quotedName nc nrest
            (nc :: r.1, r.2)
          else
            ((nc :: nrest).takeWhile (fun c => isIdentChar c),
             (nc :: nrest).dropWhile (fun c => isIdentChar c))
        let afterName := np.2.dropWhile (fun c => isWs c)
        match afterName with
        | [] => []
        | a :: arest =>
          if a = ':' then
            let v := valueLoop (arest.length + 1) arest none 0
            let entry : PropEntry :=
              { name := (⟨trimL np.1⟩ : String)
                value := (⟨trimL v.1⟩ : String)
                comment :=
                  match pc.1 ++ v.2.1 with
                  | [] => none
                  | cms => some (joinSep "\n" cms) }
            let rest2 :=
              match v.2.2 with
              | ',' :: t => t
              | r => r
            entry :: extractPropsAux fuel rest2
          else
            extractPropsAux fuel arest

/-- `extractProps` of src/utils.ts (the comment-preserving variant used
by the converter). -/
def extractProps (body : String) : List PropEntry :=
  extractPropsAux (body.data.length + 1) body.data

/-- A clean value text for the extractor: running the value automaton
(the same branch structure as `valueLoop`) over it consumes it entirely
and ends outside any string at depth zero, never hitting a depth-zero
comma, a depth-zero comment opener, or a string-escape that would
consume past the end. -/
def valueOkB : Nat → List Char → QuoteSt → Nat → Bool
  | _, [], st, d => st = none ∧ d = 0
  | 0, _, _, _ => false
  | fuel + 1, c :: cs, some q, d =>
    if c = '\\' then
      match cs with
      | [] => false
      | _ :: cs2 => valueOkB fuel cs2 (some q) d
    else if c = q then valueOkB fuel cs none d
    else valueOkB fuel cs (some q) d
  | fuel + 1, c :: cs, none, d =>
    if isQuote c then valueOkB fuel cs (some c) d
    else if c = '{' ∨ c = '[' ∨ c = '(' then valueOkB fuel cs none (d + 1)
    else if c = '}' ∨ c = ']' ∨ c = ')' then valueOkB fuel cs none (d - 1)
    else if d = 0 ∧ c = '/' ∧ (cs.head? = some '/' ∨ cs.head? = some '*') then false
    else if d = 0 ∧ c = ',' then false
    else valueOkB fuel cs none d

/-- A well-formed entry of an object-literal body, as leading whitespace,
the bare identifier name and the raw value text. -/
abbrev EntrySpec := List Char × List Char × List Char

/-- Well-formedness of one entry: the padding is whitespace, the name a
nonempty bare identifier, the value clean for the extractor automaton. -/
def entryOk : EntrySpec → Bool
  | (ws, nm, v) =>
    ws.all (fun c => isWs c) && !nm.isEmpty &&
      nm.all (fun c => isIdentChar c) && valueOkB (v.length + 1) v none 0

/-- Render a list of entries as an object-literal body: `name: value`
joined by top-level commas. -/
def renderBody : List EntrySpec → List Char
  | [] => []
  | [(ws, nm, v)] => ws ++ nm ++ ':' :: v
  | (ws, nm, v) :: e2 :: es => ws ++ nm ++ ':' :: (v ++ ',' :: renderBody (e2 :: es))

/-- The entry the extractor produces for one rendered entry. -/
def entryOf : EntrySpec → PropEntry
  | (_, nm, v) => { name := ⟨nm⟩, value := ⟨trimL v⟩, comment := none }

/-- A three-entry body exercising nested commas inside brackets, braces
and quotes. -/
def c3Entries : List EntrySpec :=
  [(" ".data, "a".data, " 1".data),
   ("\n  ".data, "b2".data, " \x27hi, there\x27".data),
   ([], "c".data, "[1, \x7b x: 2 \x7d]".data)]

theorem vl_nil (f : Nat) (st : QuoteSt) (d : Nat) : valueLoop f [] st d = ([], [], []) := by
  cases f <;> rfl

theorem vl_comma (f : Nat) (cs : List Char) : valueLoop (f + 1) (',' :: cs) none 0 = ([], [], ',' :: cs) := by
  rw [valueLoop]
  rw [if_neg (by decide), if_neg (by decide), if_neg (by decide),
    if_neg (fun h => absurd h.2.1 (by decide)), if_neg (fun h => absurd h.2.1 (by decide)),
    if_pos ⟨rfl, rfl⟩]

theorem vl_esc (f : Nat) (q c2 : Char) (cs : List Char) (d : Nat) :
    valueLoop (f + 1) ('\\' :: c2 :: cs) (some q) d =
      ('\\' :: c2 :: (valueLoop f cs (some q) d).1,
        (valueLoop f cs (some q) d).2.1, (valueLoop f cs (some q) d).2.2) := by
  rw [valueLoop]
  simp

theorem vl_some_close (f : Nat) (q : Char) (cs : List Char) (d : Nat) (hb : q ≠ '\\') :
    valueLoop (f + 1) (q :: cs) (some q) d =
      (q :: (valueLoop f cs none d).1,
        (valueLoop f cs none d).2.1, (valueLoop f cs none d).2.2) := by
  cases cs with
  | nil =>
    conv_lhs => rw [valueLoop]
    rw [if_neg hb, if_pos rfl]
  | cons c2 cs2 =>
    conv_lhs => rw [valueLoop]
    rw [if_neg hb, if_pos rfl]

theorem vl_some_other (f : Nat) (q c : Char) (cs : List Char) (d : Nat)
    (hb : c ≠ '\\') (hq : c ≠ q) :
    valueLoop (f + 1) (c :: cs) (some q) d =
      (c :: (valueLoop f cs (some q) d).1,
        (valueLoop f cs (some q) d).2.1, (valueLoop f cs (some q) d).2.2) := by
  cases cs with
  | nil =>
    conv_lhs => rw [valueLoop]
    rw [if_neg hb, if_neg hq]
  | cons c2 cs2 =>
    conv_lhs => rw [valueLoop]
    rw [if_neg hb, if_neg hq]

theorem vl_quote (f : Nat) (c : Char) (cs : List Char) (d : Nat) (h : isQuote c = true) :
    valueLoop (f + 1) (c :: cs) none d =
      (c :: (valueLoop f cs (some c) d).1,
        (valueLoop f cs (some c) d).2.1, (valueLoop f cs (some c) d).2.2) := by
  rw [valueLoop]
  simp [h]

theorem vl_open (f : Nat) (c : Char) (cs : List Char) (d : Nat)
    (hq : isQuote c = false) (h : c = '{' ∨ c = '[' ∨ c = '(') :
    valueLoop (f + 1) (c :: cs) none d =
      (c :: (valueLoop f cs none (d + 1)).1,
        (valueLoop f cs none (d + 1)).2.1, (valueLoop f cs none (d + 1)).2.2) := by
  rw [valueLoop]
  simp [hq, h]

theorem vl_close (f : Nat) (c : Char) (cs : List Char) (d : Nat)
    (hq : isQuote c = false) (hno : ¬ (c = '{' ∨ c = '[' ∨ c = '('))
    (h : c = '}' ∨ c = ']' ∨ c = ')') :
    valueLoop (f + 1) (c :: cs) none d =
      (c :: (valueLoop f cs none (d - 1)).1,
        (valueLoop f cs none (d - 1)).2.1, (valueLoop f cs none (d - 1)).2.2) := by
  rw [valueLoop]
  simp [hq, hno, h]

theorem vl_none_other (f : Nat) (c : Char) (cs : List Char) (d : Nat)
    (hq : isQuote c = false) (hno : ¬ (c = '{' ∨ c = '[' ∨ c = '('))
    (hnc : ¬ (c = '}' ∨ c = ']' ∨ c = ')'))
    (hsl : ¬ (d = 0 ∧ c = '/' ∧ cs.head? = some '/'))
    (hbl : ¬ (d = 0 ∧ c = '/' ∧ cs.head? = some '*'))
    (hcm : ¬ (d = 0 ∧ c = ',')) :
    valueLoop (f + 1) (c :: cs) none d =
      (c :: (valueLoop f cs none d).1,
        (valueLoop f cs none d).2.1, (valueLoop f cs none d).2.2) := by
  rw [valueLoop]
  rw [if_neg (by simp [hq]), if_neg hno, if_neg hnc, if_neg hsl, if_neg hbl, if_neg hcm]

theorem vb_esc (f1 : Nat) (q c2 : Char) (cs : List Char) (d : Nat) :
    valueOkB (f1 + 1) ('\\' :: c2 :: cs) (some q) d = valueOkB f1 cs (some q) d := by
  rw [valueOkB]
  simp

theorem vb_some_close (f1 : Nat) (q : Char) (cs : List Char) (d : Nat) (hb : q ≠ '\\') :
    valueOkB (f1 + 1) (q :: cs) (some q) d = valueOkB f1 cs none d := by
  cases cs with
  | nil =>
    conv_lhs => rw [valueOkB]
    rw [if_neg hb, if_pos rfl]
  | cons c2 cs2 =>
    conv_lhs => rw [valueOkB]
    rw [if_neg hb, if_pos rfl]

theorem vb_some_other (f1 : Nat) (q c : Char) (cs : List Char) (d : Nat)
    (hb : c ≠ '\\') (hq : c ≠ q) :
    valueOkB (f1 + 1) (c :: cs) (some q) d = valueOkB f1 cs (some q) d := by
  cases cs with
  | nil =>
    conv_lhs => rw [valueOkB]
    rw [if_neg hb, if_neg hq]
  | cons c2 cs2 =>
    conv_lhs => rw [valueOkB]
    rw [if_neg hb, if_neg hq]

theorem vb_quote (f1 : Nat) (c : Char) (cs : List Char) (d : Nat) (h : isQuote c = true) :
    valueOkB (f1 + 1) (c :: cs) none d = valueOkB f1 cs (some c) d := by
  rw [valueOkB]
  simp [h]

theorem vb_open (f1 : Nat) (c : Char) (cs : List Char) (d : Nat)
    (hq : isQuote c = false) (h : c = '{' ∨ c = '[' ∨ c = '(') :
    valueOkB (f1 + 1) (c :: cs) none d = valueOkB f1 cs none (d + 1) := by
  rw [valueOkB]
  simp [hq, h]

theorem vb_close (f1 : Nat) (c : Char) (cs : List Char) (d : Nat)
    (hq : isQuote c = false) (hno : ¬ (c = '{' ∨ c = '[' ∨ c = '('))
    (h : c = '}' ∨ c = ']' ∨ c = ')') :
    valueOkB (f1 + 1) (c :: cs) none d = valueOkB f1 cs none (d - 1) := by
  rw [valueOkB]
  simp [hq, hno, h]

theorem vb_none_other (f1 : Nat) (c : Char) (cs : List Char) (d : Nat)
    (hq : isQuote c = false) (hno : ¬ (c = '{' ∨ c = '[' ∨ c = '('))
    (hnc : ¬ (c = '}' ∨ c = ']' ∨ c = ')'))
    (hcmt : ¬ (d = 0 ∧ c = '/' ∧ (cs.head? = some '/' ∨ cs.head? = some '*')))
    (hcm : ¬ (d = 0 ∧ c = ',')) :
    valueOkB (f1 + 1) (c :: cs) none d = valueOkB f1 cs none d := by
  rw [valueOkB]
  rw [if_neg (by simp [hq]), if_neg hno, if_neg hnc, if_neg hcmt, if_neg hcm]

theorem valueOkB_nil_elim (f1 : Nat) (st : QuoteSt) (d : Nat)
    (h : valueOkB f1 [] st d = true) : st = none ∧ d = 0 := by
  rw [valueOkB] at h
  simpa using h

/-- A clean value followed by nothing or by a top-level comma: the value
scan of the extractor consumes exactly the value, collects no comments,
and stops right at the comma (or the end). -/
theorem valueLoop_clean (t : List Char) (hrest : t = [] ∨ ∃ t2, t = ',' :: t2) :
    ∀ (n : Nat) (v : List Char), v.length ≤ n →
    ∀ (f1 f2 : Nat) (st : QuoteSt) (d : Nat),
      v.length + 1 ≤ f1 → v.length + 1 ≤ f2 →
      valueOkB f1 v st d = true →
      valueLoop f2 (v ++ t) st d = (v, [], t) := by
  intro n
  induction n with
  | zero =>
    intro v hlen f1 f2 st d hf1 hf2 hok
    have hv : v = [] := List.eq_nil_of_length_eq_zero (Nat.le_zero.mp hlen)
    subst hv
    obtain ⟨hst, hd⟩ := valueOkB_nil_elim f1 st d hok
    subst hst; subst hd
    rcases hrest with rfl | ⟨t2, rfl⟩
    · simp [vl_nil]
    · obtain ⟨f2p, rfl⟩ : ∃ k, f2 = k + 1 := ⟨f2 - 1, by omega⟩
      simpa using vl_comma f2p t2
  | succ m ih =>
    intro v hlen f1 f2 st d hf1 hf2 hok
    match v with
    | [] =>
      obtain ⟨hst, hd⟩ := valueOkB_nil_elim f1 st d hok
      subst hst; subst hd
      rcases hrest with rfl | ⟨t2, rfl⟩
      · simp [vl_nil]
      · obtain ⟨f2p, rfl⟩ : ∃ k, f2 = k + 1 := ⟨f2 - 1, by omega⟩
        simpa using vl_comma f2p t2
    | c :: v2 =>
      obtain ⟨f1p, rfl⟩ : ∃ k, f1 = k + 1 := ⟨f1 - 1, by omega⟩
      obtain ⟨f2p, rfl⟩ : ∃ k, f2 = k + 1 := ⟨f2 - 1, by omega⟩
      simp only [List.length_cons] at hlen hf1 hf2
      rw [List.cons_append]
      match st with
      | some q =>
        by_cases hb : c = '\\'
        · subst hb
          match v2 with
          | [] =>
            rw [valueOkB] at hok
            simp at hok
          | c2 :: v3 =>
            rw [vb_esc] at hok
            simp only [List.length_cons] at hlen hf1 hf2
            rw [List.cons_append, vl_esc]
            rw [ih v3 (by omega) f1p f2p (some q) d (by omega) (by omega) hok]
        · by_cases hq : c = q
          · subst hq
            rw [vb_some_close f1p c v2 d hb] at hok
            rw [vl_some_close f2p c (v2 ++ t) d hb]
            rw [ih v2 (by omega) f1p f2p none d (by omega) (by omega) hok]
          · rw [vb_some_other f1p q c v2 d hb hq] at hok
            rw [vl_some_other f2p q c (v2 ++ t) d hb hq]
            rw [ih v2 (by omega) f1p f2p (some q) d (by omega) (by omega) hok]
      | none =>
        by_cases hquote : isQuote c = true
        · rw [vb_quote f1p c v2 d hquote] at hok
          rw [vl_quote f2p c (v2 ++ t) d hquote]
          rw [ih v2 (by omega) f1p f2p (some c) d (by omega) (by omega) hok]
        · rw [Bool.not_eq_true] at hquote
          by_cases hop : c = '{' ∨ c = '[' ∨ c = '('
          · rw [vb_open f1p c v2 d hquote hop] at hok
            rw [vl_open f2p c (v2 ++ t) d hquote hop]
            rw [ih v2 (by omega) f1p f2p none (d + 1) (by omega) (by omega) hok]
          · by_cases hcl : c = '}' ∨ c = ']' ∨ c = ')'
            · rw [vb_close f1p c v2 d hquote hop hcl] at hok
              rw [vl_close f2p c (v2 ++ t) d hquote hop hcl]
              rw [ih v2 (by omega) f1p f2p none (d - 1) (by omega) (by omega) hok]
            · have hcmt :
                  ¬ (d = 0 ∧ c = '/' ∧ (v2.head? = some '/' ∨ v2.head? = some '*')) := by
                intro hcon
                rw [valueOkB] at hok
                rw [if_neg (by simp [hquote]), if_neg hop, if_neg hcl, if_pos hcon] at hok
                exact absurd hok (by simp)
              have hcm : ¬ (d = 0 ∧ c = ',') := by
                intro hcon
                rw [valueOkB] at hok
                rw [if_neg (by simp [hquote]), if_neg hop, if_neg hcl, if_neg hcmt,
                  if_pos hcon] at hok
                exact absurd hok (by simp)
              rw [vb_none_other f1p c v2 d hquote hop hcl hcmt hcm] at hok
              have hsl2 : ¬ (d = 0 ∧ c = '/' ∧ (v2 ++ t).head? = some '/') := by
                rintro ⟨hd0, hc0, hhd⟩
                cases v2 with
                | nil =>
                  rcases hrest with rfl | ⟨t2, rfl⟩
                  · simp at hhd
                  · simp only [List.nil_append, List.head?_cons,
                      Option.some.injEq] at hhd
                    exact absurd hhd (by decide)
                | cons ch v3 =>
                  exact hcmt ⟨hd0, hc0, Or.inl (by simpa using hhd)⟩
              have hbl2 : ¬ (d = 0 ∧ c = '/' ∧ (v2 ++ t).head? = some '*') := by
                rintro ⟨hd0, hc0, hhd⟩
                cases v2 with
                | nil =>
                  rcases hrest with rfl | ⟨t2, rfl⟩
                  · simp at hhd
                  · simp only [List.nil_append, List.head?_cons,
                      Option.some.injEq] at hhd
                    exact absurd hhd (by decide)
                | cons ch v3 =>
                  exact hcmt ⟨hd0, hc0, Or.inr (by simpa using hhd)⟩
              rw [vl_none_other f2p c (v2 ++ t) d hquote hop hcl hsl2 hbl2 hcm]
              rw [ih v2 (by omega) f1p f2p none d (by omega) (by omega) hok]

theorem dropWhile_all_append (p : Char → Bool) (l1 l2 : List Char)
    (h : l1.all p = true) : (l1 ++ l2).dropWhile p = l2.dropWhile p := by
  induction l1 with
  | nil => rfl
  | cons c cs ih =>
    simp only [List.all_cons, Bool.and_eq_true] at h
    simp [List.dropWhile_cons, h.1, ih h.2]

theorem dropWhile_cons_neg (p : Char → Bool) (c : Char) (l : List Char)
    (h : p c = false) : (c :: l).dropWhile p = c :: l := by
  simp [List.dropWhile_cons, h]

theorem takeWhile_append_stop (p : Char → Bool) (l1 : List Char) (c : Char) (l2 : List Char)
    (h : l1.all p = true) (hc : p c = false) : (l1 ++ c :: l2).takeWhile p = l1 := by
  induction l1 with
  | nil => simp [List.takeWhile_cons, hc]
  | cons a as ih =>
    simp only [List.all_cons, Bool.and_eq_true] at h
    simp [List.takeWhile_cons, h.1, ih h.2]

theorem dropWhile_append_stop (p : Char → Bool) (l1 : List Char) (c : Char) (l2 : List Char)
    (h : l1.all p = true) (hc : p c = false) : (l1 ++ c :: l2).dropWhile p = c :: l2 := by
  induction l1 with
  | nil => simp [List.dropWhile_cons, hc]
  | cons a as ih =>
    simp only [List.all_cons, Bool.and_eq_true] at h
    simp [List.dropWhile_cons, h.1, ih h.2]

theorem dropWhile_eq_self_of (p : Char → Bool) (l : List Char)
    (h : ∀ c ∈ l, p c = false) : l.dropWhile p = l := by
  cases l with
  | nil => rfl
  | cons c cs => exact dropWhile_cons_neg p c cs (h c (by simp))

theorem trimL_no_ws (l : List Char) (h : ∀ c ∈ l, isWs c = false) : trimL l = l := by
  unfold trimL trimRightL trimLeftL
  rw [dropWhile_eq_self_of _ l h,
    dropWhile_eq_self_of _ l.reverse (fun c hc => h c (List.mem_reverse.mp hc)),
    List.reverse_reverse]

theorem ident_not_ws (c : Char) (h : isIdentChar c = true) : isWs c = false := by
  by_contra hw
  rw [Bool.not_eq_false] at hw
  simp only [isWs, decide_eq_true_eq] at hw
  rcases hw with rfl | rfl | rfl | rfl | rfl | rfl <;> exact absurd h (by decide)

theorem ident_not_quote (c : Char) (h : isIdentChar c = true) : isQuote c = false := by
  by_contra hw
  rw [Bool.not_eq_false] at hw
  simp only [isQuote, decide_eq_true_eq] at hw
  rcases hw with rfl | rfl | rfl <;> exact absurd h (by decide)

theorem ident_ne_slash (c : Char) (h : isIdentChar c = true) : c ≠ '/' :=
  fun hc => absurd (hc ▸ h) (by decide)

/-- The pre-entry comment loop does nothing at a non-slash non-blank
character. -/
theorem commentLoop_noop (f : Nat) (c : Char) (l : List Char)
    (hns : c ≠ '/') (hnw : isWs c = false) :
    commentLoop (f + 1) (c :: l) = ([], c :: l) := by
  rw [commentLoop]
  rw [if_neg (fun h => hns h.1), if_neg (fun h => hns h.1), if_neg (by simp [hnw])]

/-- The extractor on the empty body. -/
theorem extractAux_nil (f : Nat) : extractPropsAux f [] = [] := by
  cases f with
  | zero => rfl
  | succ f2 => rfl

/-- One final entry of a well-formed body: leading whitespace, a bare
identifier name, the colon and a clean value running to the end of the
body — the extractor emits exactly that entry, value trimmed. -/
theorem extractAux_step_last (fuel : Nat) (ws nm value : List Char)
    (hws : ws.all (fun c => isWs c) = true)
    (hnm : nm ≠ []) (hnmid : nm.all (fun c => isIdentChar c) = true)
    (hval : valueOkB (value.length + 1) value none 0 = true) :
    extractPropsAux (fuel + 1) (ws ++ nm ++ ':' :: value) =
      [({ name := ⟨nm⟩, value := ⟨trimL value⟩, comment := none } : PropEntry)] := by
  obtain ⟨n0, nm', rfl⟩ := List.exists_cons_of_ne_nil hnm
  have hid0 : isIdentChar n0 = true := by
    have h2 := hnmid
    simp only [List.all_cons, Bool.and_eq_true] at h2
    exact h2.1
  have hvl : valueLoop (value.length + 1) value none 0 = (value, [], []) := by
    have h2 := valueLoop_clean [] (Or.inl rfl) value.length value le_rfl (value.length + 1)
      (value.length + 1) none 0 (by omega) (by simp) hval
    simpa using h2
  have hcs1 : (ws ++ (n0 :: nm') ++ ':' :: value).dropWhile (fun c => isWs c) =
      n0 :: (nm' ++ ':' :: value) := by
    rw [List.append_assoc, dropWhile_all_append _ _ _ hws, List.cons_append]
    exact dropWhile_cons_neg _ _ _ (ident_not_ws n0 hid0)
  have hcmt : commentLoop ((n0 :: (nm' ++ ':' :: value)).length + 1)
      (n0 :: (nm' ++ ':' :: value)) = ([], n0 :: (nm' ++ ':' :: value)) :=
    commentLoop_noop _ _ _ (ident_ne_slash n0 hid0) (ident_not_ws n0 hid0)
  have htake : (n0 :: (nm' ++ ':' :: value)).takeWhile (fun c => isIdentChar c) =
      n0 :: nm' := by
    rw [← List.cons_append]
    exact takeWhile_append_stop _ _ _ _ hnmid (by decide)
  have hdropn : (n0 :: (nm' ++ ':' :: value)).dropWhile (fun c => isIdentChar c) =
      ':' :: value := by
    rw [← List.cons_append]
    exact dropWhile_append_stop _ _ _ _ hnmid (by decide)
  have hafter : (':' :: value).dropWhile (fun c => isWs c) = ':' :: value :=
    dropWhile_cons_neg _ _ _ (by decide)
  have htrimnm : trimL (n0 :: nm') = n0 :: nm' :=
    trimL_no_ws _ fun c hc => ident_not_ws c (List.all_eq_true.mp hnmid c hc)
  rw [extractPropsAux]
  simp only [hcs1, hcmt, htake, hdropn, ident_not_quote n0 hid0]
  simp [hafter, hvl, htrimnm, extractAux_nil]

/-- One non-final entry of a well-formed body: as `extractAux_step_last`
but followed by the separating comma and the rest of the body — the
extractor emits the entry and continues right after the comma. -/
theorem extractAux_step_mid (fuel : Nat) (ws nm value t2 : List Char)
    (hws : ws.all (fun c => isWs c) = true)
    (hnm : nm ≠ []) (hnmid : nm.all (fun c => isIdentChar c) = true)
    (hval : valueOkB (value.length + 1) value none 0 = true) :
    extractPropsAux (fuel + 1) (ws ++ nm ++ ':' :: (value ++ ',' :: t2)) =
      ({ name := ⟨nm⟩, value := ⟨trimL value⟩, comment := none } : PropEntry) ::
        extractPropsAux fuel t2 := by
  obtain ⟨n0, nm', rfl⟩ := List.exists_cons_of_ne_nil hnm
  have hid0 : isIdentChar n0 = true := by
    have h2 := hnmid
    simp only [List.all_cons, Bool.and_eq_true] at h2
    exact h2.1
  have hvl : valueLoop ((value ++ ',' :: t2).length + 1) (value ++ ',' :: t2) none 0 =
      (value, [], ',' :: t2) :=
    valueLoop_clean (',' :: t2) (Or.inr ⟨t2, rfl⟩) value.length value le_rfl
      (value.length + 1) ((value ++ ',' :: t2).length + 1) none 0 (by omega) (by simp)
      hval
  simp only [List.length_append, List.length_cons] at hvl
  have hcs1 : (ws ++ (n0 :: nm') ++ ':' :: (value ++ ',' :: t2)).dropWhile
      (fun c => isWs c) = n0 :: (nm' ++ ':' :: (value ++ ',' :: t2)) := by
    rw [List.append_assoc, dropWhile_all_append _ _ _ hws, List.cons_append]
    exact dropWhile_cons_neg _ _ _ (ident_not_ws n0 hid0)
  have hcmt : commentLoop ((n0 :: (nm' ++ ':' :: (value ++ ',' :: t2))).length + 1)
      (n0 :: (nm' ++ ':' :: (value ++ ',' :: t2))) =
      ([], n0 :: (nm' ++ ':' :: (value ++ ',' :: t2))) :=
    commentLoop_noop _ _ _ (ident_ne_slash n0 hid0) (ident_not_ws n0 hid0)
  have htake : (n0 :: (nm' ++ ':' :: (value ++ ',' :: t2))).takeWhile
      (fun c => isIdentChar c) = n0 :: nm' := by
    rw [← List.cons_append]
    exact takeWhile_append_stop _ _ _ _ hnmid (by decide)
  have hdropn : (n0 :: (nm' ++ ':' :: (value ++ ',' :: t2))).dropWhile
      (fun c => isIdentChar c) = ':' :: (value ++ ',' :: t2) := by
    rw [← List.cons_append]
    exact dropWhile_append_stop _ _ _ _ hnmid (by decide)
  have hafter : (':' :: (value ++ ',' :: t2)).dropWhile (fun c => isWs c) =
      ':' :: (value ++ ',' :: t2) :=
    dropWhile_cons_neg _ _ _ (by decide)
  have htrimnm : trimL (n0 :: nm') = n0 :: nm' :=
    trimL_no_ws _ fun c hc => ident_not_ws c (List.all_eq_true.mp hnmid c hc)
  rw [extractPropsAux]
  simp only [hcs1, hcmt, htake, hdropn, ident_not_quote n0 hid0]
  simp [hafter, hvl, htrimnm]

/-- Each rendered entry makes the body at least one character longer. -/
theorem renderBody_length (es : List EntrySpec) : es.length ≤ (renderBody es).length := by
  induction es with
  | nil => simp [renderBody]
  | cons e es2 ih =>
    obtain ⟨ws, nm, v⟩ := e
    cases es2 with
    | nil =>
      simp [renderBody]
      omega
    | cons e2 es3 =>
      simp only [renderBody, List.length_cons, List.length_append] at ih ⊢
      omega

/-- The extractor maps a rendered well-formed body back to its entries,
one `PropEntry` per rendered entry, in order. -/
theorem extractAux_render (es : List EntrySpec) :
    ∀ fuel : Nat, es.all entryOk = true → es.length ≤ fuel →
      extractPropsAux fuel (renderBody es) = es.map entryOf := by
  induction es with
  | nil =>
    intro fuel _ _
    simpa [renderBody] using extractAux_nil fuel
  | cons e es2 ih =>
    intro fuel h hf
    obtain ⟨ws, nm, v⟩ := e
    simp only [List.all_cons, Bool.and_eq_true] at h
    obtain ⟨he, hes⟩ := h
    simp only [entryOk, Bool.and_eq_true] at he
    obtain ⟨⟨⟨h1, h2⟩, h3⟩, h4⟩ := he
    have hnm : nm ≠ [] := by
      intro hh
      subst hh
      simp at h2
    cases fuel with
    | zero => exact absurd hf (by simp)
    | succ f =>
      cases es2 with
      | nil =>
        simp only [renderBody]
        rw [extractAux_step_last f ws nm v h1 hnm h3 h4]
        simp [entryOf]
      | cons e2 es3 =>
        simp only [renderBody]
        rw [extractAux_step_mid f ws nm v (renderBody (e2 :: es3)) h1 hnm h3 h4]
        rw [ih f hes (by simp only [List.length_cons] at hf ⊢; omega)]
        simp only [List.map_cons]
        rfl


end VPK

/-! ## Regex helpers

The handful of JavaScript regular expressions used by the pipeline,
implemented as explicit scans with the exact matching semantics of the
originals (leftmost match, greedy runs over disjoint character classes,
and the one backtracking case of the `type:` capture, whose
character class contains `\s`). -/

namespace VPK

/-- Strip a literal off the front of a list (`none` when it is not a
prefix). -/
def dropLit : List Char → List Char → Option (List Char)
  | [], cs => some cs
  | _, [] => none
  | l :: ls, c :: cs => if c = l then dropLit ls cs else none

/-- JS `indexOf(needle)` for a substring. -/
def firstIdxOf (lit : List Char) : List Char → Option Nat
  | [] => if lit.isEmpty then some 0 else none
  | c :: cs =>
    if (dropLit lit (c :: cs)).isSome then some 0
    else (firstIdxOf lit cs).map (· + 1)

/-- JS `indexOf(ch, i)` (search from position `i`). -/
def indexOfFrom (ch : Char) (text : List Char) (i : Nat) : Option Nat :=
  (firstIdxOf [ch] (text.drop i)).map (· + i)

/-- JS `lastIndexOf(ch, pos)` (backwards search from `pos` inclusive),
`-1` when absent. -/
def lastIndexOfBefore (ch : Char) (text : List Char) (pos : Nat) : Int :=
  match (text.take (pos + 1)).reverse.findIdx? (fun c => c = ch) with
  | some k => (text.take (pos + 1)).length - 1 - (k : Int)
  | none => -1

/-- No word character (or the start of the text) right before the match:
the JS `\b` boundary ahead of a word-character-initial literal. -/
def boundaryB : Option Char → Bool
  | none => true
  | some p => ¬ isWordChar p

/-- The JS `\b` boundary after a word-character-final literal. -/
def boundaryAfter (r : List Char) : Bool :=
  match r.head? with
  | none => true
  | some c => ¬ isWordChar c

/-- `required\s*:\s*true\b` tried at one position. -/
def matchReqAt (cs : List Char) : Bool :=
  match dropLit "required".data cs with
  | none => false
  | some r1 =>
    match r1.dropWhile (fun c => isWs c) with
    | ':' :: r3 =>
      match dropLit "true".data (r3.dropWhile (fun c => isWs c)) with
      | none => false
      | some r5 => boundaryAfter r5
    | _ => false

/-- `/\brequired\s*:\s*true\b/.test(value)` (line 9 of src/utils.ts). -/
def scanReq : Option Char → List Char → Bool
  | _, [] => false
  | prev, c :: cs => (boundaryB prev && matchReqAt (c :: cs)) || scanReq (some c) cs

/-- `default\s*:` tried at one position. -/
def matchDefAt (cs : List Char) : Bool :=
  match dropLit "default".data cs with
  | none => false
  | some r1 =>
    match r1.dropWhile (fun c => isWs c) with
    | ':' :: _ => true
    | _ => false

/-- `/\bdefault\s*:/.test(value)` (line 12 of src/utils.ts). -/
def scanDef : Option Char → List Char → Bool
  | _, [] => false
  | prev, c :: cs => (boundaryB prev && matchDefAt (c :: cs)) || scanDef (some c) cs

/-- `isPropRequired` of src/utils.ts: an explicit `required: true` wins,
then a `default:` field makes the prop not required, otherwise not
required. -/
def isPropRequired (value : String) : Bool :=
  if scanReq none value.data then true
  else if scanDef none value.data then false
  else false

/-- The first match of `/default\s*:\s*/` in a text, returning the
length of the matched text (`m[0].length`), the only thing the caller
uses. -/
def matchDefColonLenAt (cs : List Char) : Option Nat :=
  match dropLit "default".data cs with
  | none => none
  | some r1 =>
    let w1 := (r1.takeWhile (fun c => isWs c)).length
    match r1.dropWhile (fun c => isWs c) with
    | ':' :: r3 => some (7 + w1 + 1 + (r3.takeWhile (fun c => isWs c)).length)
    | _ => none

def findDefColonLen : List Char → Option Nat
  | [] => none
  | c :: cs =>
    match matchDefColonLenAt (c :: cs) with
    | some n => some n
    | none => findDefColonLen cs

/-- The scanning loop of `extractDefaultValue` (lines 39–81 of
src/utils.ts): accumulates characters with quote/escape handling and a
clamped depth counter; after a closing bracket that returns to depth
zero it breaks when the rest (left-trimmed) starts with a comma, a
newline or a closing brace; at depth zero a comma or newline breaks
without being consumed. -/
def edvLoop : List Char → QuoteSt → Nat → List Char
  | [], _, _ => []
  | c :: cs, some q, d =>
    if c = '\\' then
      match cs with
      | [] => [c]
      | c2 :: cs2 => c :: c2 :: edvLoop cs2 (some q) d
    else if c = q then c :: edvLoop cs none d
    else c :: edvLoop cs (some q) d
  | c :: cs, none, d =>
    if c = '\'' ∨ c = '"' ∨ c = '`' then c :: edvLoop cs (some c) d
    else if c = '(' ∨ c = '{' ∨ c = '[' then c :: edvLoop cs none (d + 1)
    else if c = ')' ∨ c = '}' ∨ c = ']' then
      let d2 := d - 1
      let nxt := cs.dropWhile (fun x => isWs x)
      if d2 = 0 ∧ (nxt.head? = some ',' ∨ nxt.head? = some '\n' ∨ nxt.head? = some '}') then
        [c]
      else c :: edvLoop cs none d2
    else if (c = ',' ∨ c = '\n') ∧ d = 0 then []
    else c :: edvLoop cs none d

/-- Does the trimmed default start with the five characters of an
unparameterised arrow (`(`, `)`, space, `=`, `>`)? -/
def startsArrow (cs : List Char) : Bool :=
  (dropLit "() =>".data cs).isSome

/-- `/^\(\s*(\{|\[)/` -/
def startsParenBracket (cs : List Char) : Bool :=
  match cs with
  | '(' :: r =>
    match r.dropWhile (fun c => isWs c) with
    | '{' :: _ => true
    | '[' :: _ => true
    | _ => false
  | _ => false

/-- `/(\}|\])\s*\)$/` -/
def endsBracketParen (cs : List Char) : Bool :=
  match cs.reverse with
  | ')' :: r =>
    match r.dropWhile (fun c => isWs c) with
    | '}' :: _ => true
    | ']' :: _ => true
    | _ => false
  | _ => false

/-- `def.replace(/^\(\s*/, '').replace(/\s*\)$/, '')` (only applied when
the bracket tests hold, so the text starts with `(` and ends with `)`). -/
def stripParens (cs : List Char) : List Char :=
  let a := match cs with
    | '(' :: r => r.dropWhile (fun c => isWs c)
    | r => r
  match a.reverse with
  | ')' :: r => (r.dropWhile (fun c => isWs c)).reverse
  | _ => a

/-- `extractDefaultValue` of src/utils.ts: locate `default`, take the
length of the first `/default\s*:\s*/ ` match in the suffix, scan the
value expression, then unwrap no-argument arrows and redundant
parentheses around brace/bracket literals. -/
def extractDefaultValue (value : String) : Option String :=
  match firstIdxOf "default".data value.data with
  | none => none
  | some idx =>
    let after := value.data.drop idx
    match findDefColonLen after with
    | none => none
    | some mlen =>
      let result := edvLoop (value.data.drop (idx + mlen)) none 0
      let d0 := trimL result
      if d0.isEmpty then none
      else
        let d1 :=
          if startsArrow d0 then
            let inner := trimL ((d0.drop 5).dropWhile (fun c => isWs c))
            if (inner.length ≥ 2 ∧ inner.head? = some '{' ∧ inner.getLast? = some '}') ∨
               (inner.length ≥ 2 ∧ inner.head? = some '[' ∧ inner.getLast? = some ']') then
              inner
            else if inner.head? = some '(' then inner
            else '(' :: (inner ++ [')'])
          else d0
        let d2 :=
          if startsParenBracket d1 ∧ endsBracketParen d1 then stripParens d1
          else d1
        some ⟨d2⟩

end VPK

/-! ## The Type Inferencer (`inferTypeFromValueOrValueToken`, src/utils.ts) -/

namespace VPK

/-- The angle-bracket walk of `extractPropType` (lines 398–416 of
src/utils.ts), entered just past `PropType<` with depth 1: `<` and `>`
adjust the depth, every character seen while the updated depth is still
positive is kept, and running out of input keeps what was accumulated. -/
def eptLoop : List Char → Nat → List Char
  | [], _ => []
  | c :: cs, d =>
    let d2 := if c = '<' then d + 1 else if c = '>' then d - 1 else d
    if d2 > 0 then c :: eptLoop cs d2 else []

/-- `extractPropType(input, keyword)` of src/utils.ts: find
`keyword<`, then collect the balanced angle-bracket content. -/
def extractPropType (input keyword : String) : Option String :=
  match firstIdxOf (keyword.data ++ ['<']) input.data with
  | none => none
  | some idx => some ⟨trimL (eptLoop (input.data.drop (idx + keyword.length + 1)) 1)⟩

/-- `normalizeType` of src/utils.ts. -/
def normalizeType (type : String) : String :=
  if type = "String" then "string"
  else if type = "Number" then "number"
  else if type = "Boolean" then "boolean"
  else if type = "Array" then "any[]"
  else if type = "Object" then "Record<string, any>"
  else if type = "Function" then "(...args: any[]) => any"
  else type

/-- The capture class of the `type:` regex:
`[A-Za-z0-9_$.|&\\[\]\s]` — note that it contains whitespace and
brackets but not the comma. -/
def isTypeClassChar (c : Char) : Bool :=
  isWordChar c ∨ c = '$' ∨ c = '.' ∨ c = '|' ∨ c = '&' ∨ c = '\\' ∨ c = '[' ∨ c = ']' ∨ isWs c

/-- `/type\s*:\s*([A-Za-z0-9_$.|&\\[\]\s]+)/` tried at one position:
after `type`, the whitespace run, and `:`, the greedy `\s*` takes the
following whitespace run and the capture is the greedy class run after
it; when nothing in the class follows, the engine backtracks one
whitespace character into the capture (whitespace is in the class). -/
def typeCapAt (cs : List Char) : Option (List Char) :=
  match dropLit "type".data cs with
  | none => none
  | some r1 =>
    match r1.dropWhile (fun c => isWs c) with
    | ':' :: r3 =>
      let w2 := r3.takeWhile (fun c => isWs c)
      let r4 := r3.dropWhile (fun c => isWs c)
      match r4.head? with
      | some c =>
        if isTypeClassChar c then some (r4.takeWhile (fun x => isTypeClassChar x))
        else
          match w2.reverse with
          | x :: _ => some [x]
          | [] => none
      | none =>
        match w2.reverse with
        | x :: _ => some [x]
        | [] => none
    | _ => none

/-- Leftmost match of the `type:` capture regex. -/
def findTypeCapture : List Char → Option (List Char)
  | [] => none
  | c :: cs =>
    match typeCapAt (c :: cs) with
    | some r => some r
    | none => findTypeCapture cs

/-- Middle characters (all but first and last) contain no newline: the
anchored JS `.` pieces of the quoted-literal test. -/
def quotedLit (cs : List Char) : Bool :=
  cs.length ≥ 2 ∧ isQuote (cs.headD ' ') ∧ isQuote (cs.getLastD ' ') ∧
    ((cs.drop 1).dropLast.all fun c => ¬ c = '\n')

/-- `/^\d+(\.\d+)?$/` -/
def numericLit (cs : List Char) : Bool :=
  let d1 := cs.takeWhile (fun c => isDigit c)
  let r := cs.dropWhile (fun c => isDigit c)
  ¬ d1.isEmpty ∧
    (r.isEmpty ∨ (r.head? = some '.' ∧ ¬ r.tail.isEmpty ∧ r.tail.all fun c => isDigit c))

/-- `inferTypeFromDefault` of src/utils.ts: shape heuristics on the
default value text, in source order. -/
def inferTypeFromDefault (value : String) : String :=
  let cs := value.data
  if cs.isEmpty then "any"
  else if quotedLit cs then "string"
  else if numericLit cs then "number"
  else if value = "true" ∨ value = "false" then "boolean"
  else if cs.head? = some '(' ∧ ((cs.drop 1).dropWhile fun c => isWs c).head? = some '[' then
    "any[]"
  else if cs.head? = some '[' ∨ (cs.head? = some '(' ∧ '[' ∈ cs) then "any[]"
  else if cs.head? = some '{' ∨ (cs.head? = some '(' ∧ '{' ∈ cs) then "Record<string, any>"
  else "any"

/-- The declared-`type:`-field branch of the inferencer (lines 354–364
of src/utils.ts): a captured text starting with `[` has its square
brackets removed globally, is split on commas, each piece trimmed,
normalized and joined with pipes; otherwise the trimmed capture is
normalized. -/
def inferFromTypeField (value propValueBlock : String) : String :=
  match findTypeCapture propValueBlock.data with
  | some cap =>
    let typeStr := trimL cap
    if typeStr.head? = some '[' then
      joinSep " | "
        ((splitOnChar ',' (typeStr.filter fun c => ¬ (c = '[' ∨ c = ']'))).map
          fun t => normalizeType ⟨trimL t⟩)
    else normalizeType ⟨typeStr⟩
  | none => inferTypeFromDefault value

/-- The `as PropType<` branch (lines 348–352 of src/utils.ts). -/
def inferAfterPropType (value propValueBlock : String) : String :=
  match firstIdxOf "as PropType<".data propValueBlock.data with
  | some i =>
    match extractPropType ⟨propValueBlock.data.drop i⟩ "PropType" with
    | some t => if t = "" then inferFromTypeField value propValueBlock else t
    | none => inferFromTypeField value propValueBlock
  | none => inferFromTypeField value propValueBlock

/-- `inferTypeFromValueOrValueToken` of src/utils.ts: a `PropType<...>`
generic wins, then an `as PropType<...>` cast, then the declared
`type:` field, then the shape of the default value (a JS falsy test
treats the empty capture as no capture). -/
def inferTypeFromValueOrValueToken (value propValueBlock : String) : String :=
  match extractPropType propValueBlock "PropType" with
  | some t => if t = "" then inferAfterPropType value propValueBlock else t
  | none => inferAfterPropType value propValueBlock

end VPK

/-! ## The Call-Site Locator (`findMatchesDefineProps`, src/utils.ts) -/

namespace VPK

structure DPMatch where
  start : Nat
  endPos : Nat
  openBrace : Nat
  closeBrace : Nat
  prefixTxt : String
deriving DecidableEq, Repr

/-- `defineProps\s*\(` tried at one position; returns the length of the
matched text. -/
def matchBareDP (l : List Char) : Option Nat :=
  match dropLit "defineProps".data l with
  | none => none
  | some r =>
    let w := (r.takeWhile fun c => isWs c).length
    match (r.dropWhile fun c => isWs c).head? with
    | some c => if c = '(' then some (11 + w + 1) else none
    | none => none

/-- `(?:const\s+\w+\s*=\s*)?defineProps\s*\(` tried at one position:
the greedy optional group is attempted first (`const`, then at least
one whitespace, a `\w+` run, optional whitespace, `=`, optional
whitespace), falling back to the bare pattern at the same position. -/
def matchDPAt (cs : List Char) : Option Nat :=
  let bare := matchBareDP cs
  match dropLit "const".data cs with
  | none => bare
  | some r1 =>
    let w1 := r1.takeWhile fun c => isWs c
    if w1.isEmpty then bare
    else
      let r2 := r1.dropWhile fun c => isWs c
      let nm := r2.takeWhile fun c => isWordChar c
      if nm.isEmpty then bare
      else
        let r3 := r2.dropWhile fun c => isWordChar c
        let w2 := r3.takeWhile fun c => isWs c
        match r3.dropWhile fun c => isWs c with
        | '=' :: r4 =>
          let w3 := r4.takeWhile fun c => isWs c
          match matchBareDP (r4.dropWhile fun c => isWs c) with
          | some blen =>
            some (5 + w1.length + nm.length + w2.length + 1 + w3.length + blen)
          | none => bare
        | _ => bare

/-- The `regex.exec` search: the first position at or after the current
`lastIndex` where the pattern matches, with the match length. -/
def scanDP : List Char → Nat → Option (Nat × Nat)
  | [], _ => none
  | c :: cs, i =>
    match matchDPAt (c :: cs) with
    | some len => some (i, len)
    | none => scanDP cs (i + 1)

/-- The quote-aware scan of `findFirstTopLevelBrace` (lines 190–211 of
src/utils.ts) over the window `[from, to)`. -/
def ftlbLoop : List Char → QuoteSt → Nat → Option Nat
  | [], _, _ => none
  | c :: cs, some q, i =>
    if c = '\\' then
      match cs with
      | [] => none
      | _ :: cs2 => ftlbLoop cs2 (some q) (i + 2)
    else if c = q then ftlbLoop cs none (i + 1)
    else ftlbLoop cs (some q) (i + 1)
  | c :: cs, none, i =>
    if isQuote c then ftlbLoop cs (some c) (i + 1)
    else if c = '{' then some i
    else ftlbLoop cs none (i + 1)

/-- `findFirstTopLevelBrace` of src/utils.ts. -/
def findFirstTopLevelBrace (text : List Char) (a b : Nat) : Int :=
  match ftlbLoop (strSlice text a b) none a with
  | some j => (j : Int)
  | none => -1

/-- The `while ((m = regex.exec(text)))` loop of `findMatchesDefineProps`
(lines 151–180 of src/utils.ts): each candidate is bounded with the
Balanced-Scanner and discarded (`continue`) when any sub-scan fails or
the object body closes outside the argument list. -/
def findMatchesAux : Nat → List Char → Nat → List DPMatch
  | 0, _, _ => []
  | fuel + 1, text, pos =>
    match scanDP (text.drop pos) pos with
    | none => []
    | some (start, mlen) =>
      let next := start + mlen
      match indexOfFrom '(' text (start + mlen - 1) with
      | none => findMatchesAux fuel text next
      | some openParen =>
        let cp := findMatchingL text openParen '(' ')'
        if cp < 0 then findMatchesAux fuel text next
        else
          let closeParen := cp.toNat
          let bo := findFirstTopLevelBrace text (openParen + 1) closeParen
          if bo < 0 then findMatchesAux fuel text next
          else
            let braceOpen := bo.toNat
            let bc := findMatchingL text braceOpen '{' '}'
            if bc < 0 ∨ bc > (closeParen : Int) then findMatchesAux fuel text next
            else
              { start := start, endPos := closeParen + 1, openBrace := braceOpen,
                closeBrace := bc.toNat,
                prefixTxt := ⟨strSlice text start openParen⟩ } ::
                findMatchesAux fuel text next

/-- `findMatchesDefineProps` of src/utils.ts. -/
def findMatchesDefineProps (text : String) : List DPMatch :=
  findMatchesAux (text.data.length + 1) text.data 0

end VPK

/-! ## The converter (`convertProps`, src/core/converter.ts) -/

namespace VPK

structure PropDefinition where
  name : String
  type : String
  required : Bool
  defaultValue : Option String
  comment : Option String
deriving DecidableEq, Repr

/-- The quote-stripping `replace(/^['"`](.+)['"`]$/, '$1')` of line 37
of src/core/converter.ts: any leading quote and any trailing quote
around at least one character, none of the inner characters a newline
(JS `.` does not match newlines). -/
def stripQuotes (name : String) : String :=
  let cs := name.data
  if cs.length ≥ 3 ∧ isQuote (cs.headD ' ') ∧ isQuote (cs.getLastD ' ') ∧
      ((cs.drop 1).dropLast.all fun c => ¬ c = '\n') then
    ⟨(cs.drop 1).dropLast⟩
  else name

/-- The regex `/^[^{}[\n]/` of line 45 of src/core/converter.ts: a
first character exists and is not `{`, `}`, `[` or a newline. -/
def fallbackDefaultTest (valueBlock : String) : Bool :=
  match valueBlock.data.head? with
  | none => false
  | some c => ¬ (c = '{' ∨ c = '}' ∨ c = '[' ∨ c = '\n')

/-- Lines 44–46 of src/core/converter.ts: the extracted `default:` value
or, failing that, the whole raw value text when its first character is
not `{`, `}`, `[` or a newline. -/
def computeDefault (valueBlock : String) : Option String :=
  match extractDefaultValue valueBlock with
  | some d => some d
  | none => if fallbackDefaultTest valueBlock then some valueBlock else none

/-- Lines 36–57 of src/core/converter.ts: one parsed entry. -/
def parseProp (p : PropEntry) : PropDefinition :=
  let name := stripQuotes p.name
  let valueBlock := p.value
  let required := isPropRequired valueBlock
  let defaultValue := computeDefault valueBlock
  let type := inferTypeFromValueOrValueToken (defaultValue.getD "") valueBlock
  { name := name, type := type, required := required,
    defaultValue := defaultValue, comment := p.comment }

/-- Line 62 of src/core/converter.ts. -/
def isOptionalP (p : PropDefinition) : Bool :=
  p.defaultValue.isSome || p.required = false

/-- Line 63 of src/core/converter.ts: the type-block line proper. -/
def typeLineCore (p : PropDefinition) : String :=
  p.name ++ (if isOptionalP p then "?" else "") ++ ": " ++ p.type

/-- Lines 66–69 of src/core/converter.ts: re-indent a multi-line
comment (first line left-trimmed only, later lines trimmed and
two-space indented). -/
def formatCommentLines : Nat → List (List Char) → List String
  | _, [] => []
  | idx, line :: rest =>
    (if idx = 0 then (⟨line.dropWhile fun c => isWs c⟩ : String)
     else "  " ++ (⟨trimL line⟩ : String)) :: formatCommentLines (idx + 1) rest

def formatComment (cm : String) : String :=
  joinSep "\n" (formatCommentLines 0 (splitOnChar '\n' cm.data))

/-- Lines 61–73 of src/core/converter.ts: the rendered type-block line
(JS truthiness: an absent or empty comment leaves the bare line). -/
def tsLineFor (p : PropDefinition) : String :=
  match p.comment with
  | some cm =>
    if cm = "" then typeLineCore p
    else formatComment cm ++ "\n  " ++ typeLineCore p
  | none => typeLineCore p

/-- Lines 76–79 of src/core/converter.ts: one destructuring part. -/
def destructurePartFor (p : PropDefinition) : String :=
  match p.defaultValue with
  | some d => p.name ++ " = " ++ d
  | none => p.name

/-- `/\b(const|let|var)\b/` and friends: the three binding keywords
tried in alternation order at one position. -/
def kwDrop (cs : List Char) : Option (Nat × List Char) :=
  match dropLit "const".data cs with
  | some r => some (5, r)
  | none =>
    match dropLit "let".data cs with
    | some r => some (3, r)
    | none =>
      match dropLit "var".data cs with
      | some r => some (3, r)
      | none => none

/-- `/\b(const|let|var)\b/` at one position (the keyword capture). -/
def declAt (cs : List Char) : Option String :=
  match dropLit "const".data cs with
  | some r => if boundaryAfter r then some "const" else none
  | none =>
    match dropLit "let".data cs with
    | some r => if boundaryAfter r then some "let" else none
    | none =>
      match dropLit "var".data cs with
      | some r => if boundaryAfter r then some "var" else none
      | none => none

def scanDecl : Option Char → List Char → Option String
  | _, [] => none
  | prev, c :: cs =>
    (if boundaryB prev then declAt (c :: cs) else none) <|> scanDecl (some c) cs

/-- Lines 87–88 of src/core/converter.ts: the original binding keyword,
defaulting to `const`. -/
def declOf (prefixTxt : String) : String :=
  (scanDecl none prefixTxt.data).getD "const"

/-- `/\b(const|let|var)\s+[A-Za-z0-9_$]+\s*=/` at one position. -/
def hasVarAt (cs : List Char) : Bool :=
  match kwDrop cs with
  | none => false
  | some (_, r1) =>
    let w := r1.takeWhile fun c => isWs c
    ¬ w.isEmpty ∧
      (let r2 := r1.dropWhile fun c => isWs c
       let nm := r2.takeWhile fun c => isIdentChar c
       ¬ nm.isEmpty ∧
         ((r2.dropWhile fun c => isIdentChar c).dropWhile fun c => isWs c).head? = some '=')

def scanHasVar : Option Char → List Char → Bool
  | _, [] => false
  | prev, c :: cs => (boundaryB prev && hasVarAt (c :: cs)) || scanHasVar (some c) cs

/-- Line 95 of src/core/converter.ts. -/
def hasVarTest (prefixTxt : String) : Bool :=
  scanHasVar none prefixTxt.data

/-- `/\b(?:const|let|var)\s+([A-Za-z0-9_$]+)\s*=\s*$/` at one position
(anchored at the end of the text). -/
def varNameAt (cs : List Char) : Option String :=
  match kwDrop cs with
  | none => none
  | some (_, r1) =>
    let w := r1.takeWhile fun c => isWs c
    if w.isEmpty then none
    else
      let r2 := r1.dropWhile fun c => isWs c
      let nm := r2.takeWhile fun c => isIdentChar c
      if nm.isEmpty then none
      else
        match (r2.dropWhile fun c => isIdentChar c).dropWhile fun c => isWs c with
        | '=' :: r4 => if (r4.dropWhile fun c => isWs c).isEmpty then some ⟨nm⟩ else none
        | _ => none

def scanVarName : Option Char → List Char → Option String
  | _, [] => none
  | prev, c :: cs =>
    (if boundaryB prev then varNameAt (c :: cs) else none) <|> scanVarName (some c) cs

/-- Line 96 of src/core/converter.ts. -/
def varNameOf (prefixTxt : String) : Option String :=
  scanVarName none prefixTxt.data

/-- Line 103 of src/core/converter.ts: the multi-line switch of the
destructuring binding block. -/
def bindingMultiline (destructureParts : List String) : Bool :=
  (joinSep ", " destructureParts).length > 60 || destructureParts.length > 1

/-- The indented type block `tsLines.map(l => indent + '  ' + l).join('\n')`. -/
def tsBlock (indent : String) (tsLines : List String) : String :=
  joinSep "\n" (tsLines.map fun l => indent ++ "  " ++ l)

/-- Lines 101–110 of src/core/converter.ts: the destructuring binding
rendering, single-line or multi-line by `bindingMultiline`. -/
def renderBinding (indent decl : String) (destructureParts tsLines : List String) : String :=
  if bindingMultiline destructureParts then
    indent ++ decl ++ " \x7b\n" ++
      joinSep "\n" (destructureParts.map fun p => indent ++ "  " ++ p ++ ",") ++
      "\n" ++ indent ++ "\x7d = defineProps<\x7b\n" ++ tsBlock indent tsLines ++
      "\n" ++ indent ++ "\x7d>()"
  else
    indent ++ decl ++ " \x7b " ++ joinSep ", " destructureParts ++
      " \x7d = defineProps<\x7b\n" ++ tsBlock indent tsLines ++ "\n" ++ indent ++ "\x7d>()"

/-- Lines 93–100 of src/core/converter.ts: the no-defaults branch. -/
def renderNoParts (indent decl : String) (prefixTxt : String) (tsLines : List String) :
    String :=
  let varName := (varNameOf prefixTxt).getD "props"
  if hasVarTest prefixTxt then
    indent ++ decl ++ " " ++ varName ++ " = defineProps<\x7b\n" ++
      tsBlock indent tsLines ++ "\n" ++ indent ++ "\x7d>()"
  else
    indent ++ "defineProps<\x7b\n" ++ tsBlock indent tsLines ++ "\n" ++ indent ++ "\x7d>()"

/-- The body of `convertProps` for the first located call site. -/
def convertBody (text : List Char) (m : DPMatch) : String :=
  let body : String := ⟨strSlice text (m.openBrace + 1) m.closeBrace⟩
  let propsParsed := (extractProps body).map parseProp
  let tsLines := propsParsed.map tsLineFor
  let destructureParts := propsParsed.map destructurePartFor
  let lineStart := (lastIndexOfBefore '\n' text m.start + 1).toNat
  let indent : String := ⟨(strSlice text lineStart m.start).takeWhile fun c => isWs c⟩
  let decl := declOf m.prefixTxt
  if destructureParts.isEmpty then renderNoParts indent decl m.prefixTxt tsLines
  else renderBinding indent decl destructureParts tsLines

/-- `convertProps` of src/core/converter.ts: the original text when no
call site is found, otherwise the rendered replacement for the first
one. -/
def convertProps (source : String) : String :=
  match findMatchesDefineProps source with
  | [] => source
  | m :: _ => convertBody source.data m

end VPK

/-! ## The Babel-based variant (src/core/converter.ts, AST refactor)

`normalizePropKey` and the numeric-key segment of `normalizeDefault`
from the AST-based converter.  `normalizeDefault` hands the default text
to the Babel parser; the embedding of its object-literal branch takes
the parser's output — the list of (integer key, generated value code)
pairs of an object expression whose keys were all classified numeric —
as its input, and reproduces the repository's own walk over it
verbatim. -/

namespace VPK

/-- `dropWhile` never lengthens a list. -/
theorem length_dropWhile_le (p : Char → Bool) (l : List Char) :
    (l.dropWhile p).length ≤ l.length :=
  (List.dropWhile_sublist (l := l) (p := p)).length_le

/-- The kept characters of `replace(/[^a-zA-Z0-9 ]+/g, ' ')`:
alphanumerics and the literal space. -/
def isKeyKeep (c : Char) : Bool :=
  ('A' ≤ c ∧ c ≤ 'Z') ∨ ('a' ≤ c ∧ c ≤ 'z') ∨ ('0' ≤ c ∧ c ≤ '9') ∨ c = ' '

/-- `replace(/[^a-zA-Z0-9 ]+/g, ' ')`: each maximal run of characters
outside the class becomes a single space. -/
def replaceRuns : Nat → List Char → List Char
  | _, [] => []
  | 0, cs => cs
  | fuel + 1, c :: cs =>
    if isKeyKeep c then c :: replaceRuns fuel cs
    else ' ' :: replaceRuns fuel (cs.dropWhile fun x => ¬ isKeyKeep x)

/-- `split(/\s+/)` on a trimmed text: the maximal non-whitespace runs. -/
def wsSplit : Nat → List Char → List (List Char)
  | _, [] => []
  | 0, _ => []
  | fuel + 1, c :: cs =>
    if isWs c then wsSplit fuel cs
    else (c :: cs.takeWhile fun x => ¬ isWs x) :: wsSplit fuel (cs.dropWhile fun x => ¬ isWs x)

/-- `normalizePropKey` of the AST-based converter: strip to
alphanumerics/space (runs of stripped characters become one space),
trim, split on whitespace, lower-case the first token and title-case
the rest. -/
def normalizePropKey (key : String) : String :=
  match wsSplit (key.data.length + 1) (trimL (replaceRuns (key.data.length + 1) key.data)) with
  | [] => ""
  | t :: ts =>
    ⟨t.map Char.toLower ++
      (ts.map fun w =>
        match w with
        | [] => []
        | c :: rest => Char.toUpper c :: rest.map Char.toLower).join⟩

/-- JS sparse-array assignment `a[i] = v`: pads with holes up to `i`. -/
def jsArraySet (a : List (Option String)) (i : Nat) (v : String) : List (Option String) :=
  if i < a.length then a.set i (some v)
  else a ++ List.replicate (i - a.length) none ++ [some v]

/-- The numeric-key object branch of `normalizeDefault` (AST-based
converter): over the parsed properties (integer key, generated value
code) the code runs `if (keyIndex) numericEntries[keyIndex] = ...` —
storing only at truthy, i.e. nonzero, indexes — and converts to an
array literal only when positions `0..length-1` of the sparse array are
all filled; `none` is the fall-through to the later heuristics. -/
def numericKeysToArray (props : List (Nat × String)) : Option String :=
  if props.isEmpty then none
  else
    let entries :=
      props.foldl (fun a kv => if kv.1 ≠ 0 then jsArraySet a kv.1 kv.2 else a) []
    if entries.all (fun o => o.isSome) then
      some ("[" ++ joinSep ", " (entries.map fun o => o.getD "") ++ "]")
    else none

end VPK

/-! ## The claims -/

namespace VPK

/-- C1: for every input string on which the call-site locator
(`findMatchesDefineProps`) returns the empty list, `convertProps`
returns its input unchanged — no-match is an explicit no-op, not an
error. -/
theorem C1_convert_noop_on_no_match (x : String)
    (h : findMatchesDefineProps x = []) : convertProps x = x := by
  unfold convertProps
  rw [h]

/-- Witness for C1 at a concrete no-match input. -/
theorem C1_convert_noop_on_no_match_witness :
    findMatchesDefineProps "hello" = [] ∧ convertProps "hello" = "hello" :=
  have h : findMatchesDefineProps "hello" = [] := by decide
  ⟨h, C1_convert_noop_on_no_match "hello" h⟩

/-- C2: an entry whose value block carries an explicit `required: true`
marker (so `isPropRequired` reports it required) and a `default:` field
the default extractor recovers is nevertheless rendered optional: its
type-block line is the entry name followed by the `?` marker — the
default takes precedence over the required marker. -/
theorem C2_default_wins_over_required (name v : String) (cm : Option String) (d : String)
    (hreq : scanReq none v.data = true) (hdef : extractDefaultValue v = some d) :
    isPropRequired v = true ∧
      isOptionalP (parseProp ⟨name, v, cm⟩) = true ∧
      typeLineCore (parseProp ⟨name, v, cm⟩) =
        stripQuotes name ++ "?" ++ ": " ++ (parseProp ⟨name, v, cm⟩).type := by
  have hr : isPropRequired v = true := by
    unfold isPropRequired
    rw [hreq]
    simp
  have hopt : isOptionalP (parseProp ⟨name, v, cm⟩) = true := by
    simp [parseProp, isOptionalP, computeDefault, hdef]
  refine ⟨hr, hopt, ?_⟩
  unfold typeLineCore
  rw [hopt]
  simp [parseProp]

/-- Witness for C2: a concrete block with both markers. -/
theorem C2_default_wins_over_required_witness :
    scanReq none "\x7b\n type: Number,\n required: true,\n default: 0\n\x7d".data = true ∧
      extractDefaultValue "\x7b\n type: Number,\n required: true,\n default: 0\n\x7d" =
        some "0" ∧
      (isPropRequired "\x7b\n type: Number,\n required: true,\n default: 0\n\x7d" = true ∧
        isOptionalP (parseProp
          ⟨"count", "\x7b\n type: Number,\n required: true,\n default: 0\n\x7d", none⟩) =
          true ∧
        typeLineCore (parseProp
          ⟨"count", "\x7b\n type: Number,\n required: true,\n default: 0\n\x7d", none⟩) =
          stripQuotes "count" ++ "?" ++ ": " ++
            (parseProp
              ⟨"count", "\x7b\n type: Number,\n required: true,\n default: 0\n\x7d",
                none⟩).type) :=
  have h1 : scanReq none "\x7b\n type: Number,\n required: true,\n default: 0\n\x7d".data =
      true := by decide
  have h2 : extractDefaultValue "\x7b\n type: Number,\n required: true,\n default: 0\n\x7d" =
      some "0" := by decide
  ⟨h1, h2, C2_default_wins_over_required "count"
    "\x7b\n type: Number,\n required: true,\n default: 0\n\x7d" none "0" h1 h2⟩

/-- C3: for every well-formed object-literal body with N top-level
comma-separated `name: value` entries — rendered by `renderBody` from
entry specs that `entryOk` accepts — `extractProps` returns exactly N
entries, one per source entry and in the source order (each carrying its
source name and trimmed value). -/
theorem C3_entry_count_preserved (es : List EntrySpec)
    (h : es.all entryOk = true) :
    extractProps ⟨renderBody es⟩ = es.map entryOf ∧
      (extractProps ⟨renderBody es⟩).length = es.length := by
  have hmain : extractProps ⟨renderBody es⟩ = es.map entryOf :=
    extractAux_render es ((renderBody es).length + 1) h
      (Nat.le_succ_of_le (renderBody_length es))
  exact ⟨hmain, by rw [hmain, List.length_map]⟩

theorem C3_entry_count_preserved_witness :
    c3Entries.all entryOk = true ∧
      (extractProps ⟨renderBody c3Entries⟩ = c3Entries.map entryOf ∧
        (extractProps ⟨renderBody c3Entries⟩).length = c3Entries.length) :=
  ⟨by decide, C3_entry_count_preserved c3Entries (by decide)⟩

/-- C5: the claim expects `type: [String, Number]` to be inferred as the
union `string | number`; the capture class of the `type:` regex lacks
the comma, so the captured list is truncated to `[String` and the
inferencer returns plain `string`.  The split-on-comma/join-with-pipe
branch right after the capture, and the spec, show the union was the
intent. -/
theorem C5_bracket_list_not_union :
    inferTypeFromValueOrValueToken "" "\x7b type: [String, Number] \x7d" = "string" ∧
      inferTypeFromValueOrValueToken "" "\x7b type: [String, Number] \x7d" ≠
        "string | number" ∧
      findTypeCapture "\x7b type: [String, Number] \x7d".data = some "[String".data ∧
      normalizeType "String" = "string" ∧ normalizeType "Number" = "number" := by
  refine ⟨by decide, by decide, by decide, rfl, rfl⟩

/-- C6: the claim (and the code comments around the numeric-key walk)
expect an object literal with dense base-10 integer keys `0..n` to
become an array literal ordered by key: `\x7b 0: 1 \x7d` should give
`[1]` and `\x7b 0: 1, 1: 2 \x7d` should give `[1, 2]`.  Because the
store is guarded by the truthiness test `if (keyIndex)`, index 0 is
never stored: a single-key object yields the empty array literal `[]`
(dropping its value), and any larger dense object fails the
contiguity check and falls through to the eval-based re-render. -/
theorem C6_dense_numeric_keys_broken :
    numericKeysToArray [(0, "1")] = some "[]" ∧
      numericKeysToArray [(0, "1")] ≠ some "[1]" ∧
      numericKeysToArray [(0, "1"), (1, "2")] = none := by
  refine ⟨by decide, by decide, by decide⟩

/-- C7 counterexample: the scanner-based `convertProps` of
src/core/converter.ts only strips the quotes around a quoted key
(line 37), so the key `weird-key` is rendered verbatim — the name
`weirdKey` appears nowhere in the conversion output. -/
theorem C7_counterexample_no_camel_case :
    convertProps
        "defineProps(\x7b \x27weird-key\x27: \x7b type: String, default: \x27test\x27 \x7d \x7d)" =
      "const \x7b weird-key = \x27test\x27 \x7d \x7d = defineProps<\x7b\n  weird-key?: string\n\x7d>()" ∧
      ¬ containsStr
        (convertProps
          "defineProps(\x7b \x27weird-key\x27: \x7b type: String, default: \x27test\x27 \x7d \x7d)")
        "weirdKey" := by
  refine ⟨by decide, by decide⟩

/-- C7 as amended: lower-camel-casing of non-identifier keys is done by
`normalizePropKey` of the AST-based converter variant (replacing runs of
characters outside alphanumerics/space with one space, then splitting
and camel-casing), with the claimed example outcomes; the scanner-based
converter keeps the key text `weird-key` unchanged in its output. -/
theorem C7_amended_normalize_prop_key :
    normalizePropKey "weird-key" = "weirdKey" ∧
      normalizePropKey "super🔥 value" = "superValue" ∧
      containsStr
        (convertProps
          "defineProps(\x7b \x27weird-key\x27: \x7b type: String, default: \x27test\x27 \x7d \x7d)")
        "weird-key" := by
  refine ⟨by decide, by decide, by decide⟩

/-- C8 counterexample: a colon-less token directly followed by a
newline-separated entry does not make extraction skip to the next line;
the extractor advances one character past the colon check, which makes
it consume the next entry name `b` as garbage and emit an entry with an
empty name — entry `b` never appears in the extraction or in the
conversion output. -/
theorem C8_counterexample_newline_malformed :
    extractProps "a: 1,\nbad\nb: 2" = [⟨"a", "1", none⟩, ⟨"", "2", none⟩] ∧
      ¬ ("b" ∈ (extractProps "a: 1,\nbad\nb: 2").map PropEntry.name) ∧
      ¬ containsStr (convertProps "defineProps(\x7b a: 1,\nbad\nb: 2 \x7d)") "b = 2" := by
  refine ⟨by decide, by decide, by decide⟩

/-- C8 as amended: when the malformed colon-less token is delimited by a
top-level comma, the surrounding well-formed entries are extracted
intact and the malformed token is silently dropped from the conversion
output. -/
theorem C8_amended_comma_malformed_recovery :
    extractProps "a: 1, bad, b: 2" = [⟨"a", "1", none⟩, ⟨"b", "2", none⟩] ∧
      convertProps "defineProps(\x7b a: 1, bad, b: 2 \x7d)" =
        "const \x7b\n  a = 1,\n  b = 2,\n\x7d = defineProps<\x7b\n  a?: number\n  b?: number\n\x7d>()" ∧
      ¬ containsStr (convertProps "defineProps(\x7b a: 1, bad, b: 2 \x7d)") "bad" := by
  refine ⟨by decide, by decide, by decide⟩

/-- C9: with at least one destructure entry, the binding block renders
as a single brace-delimited line exactly when there is one entry whose
joined rendering does not exceed 60 characters; otherwise it renders
multi-line, one entry per line, each with a trailing comma. -/
theorem C9_binding_layout_switch (parts tsLines : List String) (indent decl : String)
    (hne : parts ≠ []) :
    (bindingMultiline parts = false ↔
      parts.length = 1 ∧ (joinSep ", " parts).length ≤ 60) ∧
      (bindingMultiline parts = false →
        renderBinding indent decl parts tsLines =
          indent ++ decl ++ " \x7b " ++ joinSep ", " parts ++
            " \x7d = defineProps<\x7b\n" ++ tsBlock indent tsLines ++ "\n" ++ indent ++
            "\x7d>()") ∧
      (bindingMultiline parts = true →
        renderBinding indent decl parts tsLines =
          indent ++ decl ++ " \x7b\n" ++
            joinSep "\n" (parts.map fun p => indent ++ "  " ++ p ++ ",") ++
            "\n" ++ indent ++ "\x7d = defineProps<\x7b\n" ++ tsBlock indent tsLines ++
            "\n" ++ indent ++ "\x7d>()") := by
  have hlen : 1 ≤ parts.length := by
    cases parts with
    | nil => exact absurd rfl hne
    | cons p ps => simp
  refine ⟨?_, ?_, ?_⟩
  · unfold bindingMultiline
    simp only [Bool.or_eq_false_iff, decide_eq_false_iff_not, Nat.not_lt]
    omega
  · intro h
    unfold renderBinding
    rw [h]
    simp
  · intro h
    unfold renderBinding
    rw [h]
    simp

/-- Witness for C9 at one concrete entry. -/
theorem C9_binding_layout_switch_witness :
    (["count = 0"] : List String) ≠ [] ∧
      ((bindingMultiline ["count = 0"] = false ↔
        (["count = 0"] : List String).length = 1 ∧
          (joinSep ", " ["count = 0"]).length ≤ 60) ∧
        (bindingMultiline ["count = 0"] = false →
          renderBinding "" "const" ["count = 0"] ["count?: number"] =
            "" ++ "const" ++ " \x7b " ++ joinSep ", " ["count = 0"] ++
              " \x7d = defineProps<\x7b\n" ++ tsBlock "" ["count?: number"] ++ "\n" ++ "" ++
              "\x7d>()") ∧
        (bindingMultiline ["count = 0"] = true →
          renderBinding "" "const" ["count = 0"] ["count?: number"] =
            "" ++ "const" ++ " \x7b\n" ++
              joinSep "\n" ((["count = 0"] : List String).map fun p => "" ++ "  " ++ p ++ ",") ++
              "\n" ++ "" ++ "\x7d = defineProps<\x7b\n" ++ tsBlock "" ["count?: number"] ++
              "\n" ++ "" ++ "\x7d>()")) :=
  ⟨by decide, C9_binding_layout_switch ["count = 0"] ["count?: number"] "" "const"
    (by decide)⟩

/-- C10 counterexample: the empty raw value text contains no `default:`
field and does not begin with `\x7b`, `[` or a newline, yet the
converter does not use it as the default — the fallback regex
`/^[^\x7b\x7d[\n]/` demands a first character, so the computed default
is `none`, not the raw text. -/
theorem C10_counterexample_empty_value :
    extractDefaultValue "" = none ∧
      ("".data.head? = some '\x7b' ∨ "".data.head? = some '[' ∨
          "".data.head? = some '\n' → False) ∧
      computeDefault "" ≠ some "" := by
  refine ⟨by decide, by decide, by decide⟩

/-- C10 as amended: for an entry whose value block yields nothing from
the default extractor and whose raw value text is nonempty and does not
begin with `\x7b`, `\x7d`, `[` or a newline, the whole raw value text
becomes the default: the entry is optional and its destructuring part
is `name = rawValue`. -/
theorem C10_raw_value_as_default (name v : String) (cm : Option String)
    (hnd : extractDefaultValue v = none) (hne : v ≠ "")
    (hhead : v.data.head? ≠ some '\x7b' ∧ v.data.head? ≠ some '\x7d' ∧
      v.data.head? ≠ some '[' ∧ v.data.head? ≠ some '\n') :
    computeDefault v = some v ∧
      (parseProp ⟨name, v, cm⟩).defaultValue = some v ∧
      isOptionalP (parseProp ⟨name, v, cm⟩) = true ∧
      destructurePartFor (parseProp ⟨name, v, cm⟩) = stripQuotes name ++ " = " ++ v := by
  have hfb : fallbackDefaultTest v = true := by
    unfold fallbackDefaultTest
    cases hv : v.data with
    | nil => exact absurd (congrArg String.mk hv) hne
    | cons c cs =>
      rw [hv] at hhead
      simp only [ne_eq, List.head?_cons, Option.some.injEq] at hhead
      simp only [List.head?_cons, decide_eq_true_eq]
      push_neg
      exact ⟨hhead.1, hhead.2.1, hhead.2.2.1, hhead.2.2.2⟩
  have hcd : computeDefault v = some v := by
    unfold computeDefault
    rw [hnd, hfb]
    simp
  refine ⟨hcd, ?_, ?_, ?_⟩
  · simp [parseProp, hcd]
  · simp [parseProp, isOptionalP, hcd]
  · simp [parseProp, destructurePartFor, hcd]

/-- Witness for C10 at the shorthand `title: String`. -/
theorem C10_raw_value_as_default_witness :
    extractDefaultValue "String" = none ∧ ("String" : String) ≠ "" ∧
      ("String".data.head? ≠ some '\x7b' ∧ "String".data.head? ≠ some '\x7d' ∧
        "String".data.head? ≠ some '[' ∧ "String".data.head? ≠ some '\n') ∧
      (computeDefault "String" = some "String" ∧
        (parseProp ⟨"title", "String", none⟩).defaultValue = some "String" ∧
        isOptionalP (parseProp ⟨"title", "String", none⟩) = true ∧
        destructurePartFor (parseProp ⟨"title", "String", none⟩) =
          stripQuotes "title" ++ " = " ++ "String") :=
  ⟨by decide, by decide, by decide,
    C10_raw_value_as_default "title" "String" none (by decide) (by decide)
      ⟨by decide, by decide, by decide, by decide⟩⟩

end VPK
